import Mathlib

/-!
Verification of the Extraction Reconciliation Engine of the
daftar-harga-produk repository (src/components/MappingModal.tsx and
src/services/geminiService.ts), shallowly embedded in Lean 4.

Modelling conventions:
* A raw extracted cell (`string | number` in TypeScript, plus the absent /
  null cases that arise from JSON) is the inductive type `Value`.  Finite
  JavaScript numbers are modelled as integers (the price-list domain uses
  whole currency units); non-finite numbers (NaN / Infinity) keep their
  JavaScript string rendering.
* A `RawExtractionItem` (a JavaScript object) is an association list
  `Row := List (String × Value)`; `rowGet` is property access (first
  binding wins) and `rowKeys` is `Object.keys` (first-seen order, no
  duplicates).  Since the shape of a JavaScript object is exactly its
  key-to-value mapping, row equality in the theorems below is extensional
  equality of `rowGet` (the spec's RawRow is an "ordered-irrelevant
  mapping").
* Similarity scores are exact rationals; JavaScript performs the same
  comparisons on IEEE doubles, whose rounding plays no role at the
  constants 1.0, 0.9, 0.2, 0.75 used here.
-/

/-- A raw cell value as it can reach the engine: a string, a finite number
(integral in this domain), a non-finite number carrying its JavaScript
string form ("NaN", "Infinity", ...), or JSON null. -/
inductive Value where
  | str (s : String)
  | num (n : Int)
  | nonfinite (text : String)
  | null
deriving DecidableEq

/-- One extracted row: a JavaScript object from header key to cell value. -/
abbrev Row := List (String × Value)

/-- Property access `row[key]`: first binding wins, `none` = absent key. -/
def rowGet (row : Row) (k : String) : Option Value :=
  match row with
  | [] => none
  | (k2, v) :: rest => if k2 = k then some v else rowGet rest k

/-- Keep the first occurrence of each element not already seen
(`Array.from(new Set(...))` iteration order). -/
def dedupFirst (l : List String) (seen : List String) : List String :=
  match l with
  | [] => []
  | k :: rest => if k ∈ seen then dedupFirst rest seen else k :: dedupFirst rest (k :: seen)

/-- `Object.keys(row)`: the row's keys in first-seen order, no duplicates. -/
def rowKeys (row : Row) : List String :=
  dedupFirst (row.map Prod.fst) []

/-- The union of all header keys across a batch, in first-seen order
(`Array.from(new Set(rows.flatMap(r => Object.keys(r))))`). -/
def allKeysOf (rows : List Row) : List String :=
  dedupFirst (rows.flatMap rowKeys) []

/-- ASCII lower-casing, the effect of JavaScript `toLowerCase` on the
header/data alphabet in play. -/
def lowerStr (s : String) : String :=
  String.mk (s.data.map Char.toLower)

/-- Whitespace trimming at both ends (JavaScript `trim`). -/
def trimStr (s : String) : String :=
  String.mk (((s.data.dropWhile Char.isWhitespace).reverse.dropWhile Char.isWhitespace).reverse)

/-- Decimal digits of a natural number (structural, via fuel). -/
def natChars (fuel n : Nat) : List Char :=
  match fuel with
  | 0 => []
  | fuel + 1 =>
    if n < 10 then [Char.ofNat (48 + n)]
    else natChars fuel (n / 10) ++ [Char.ofNat (48 + n % 10)]

/-- JavaScript `String(n)` for an integral number. -/
def jsIntString (n : Int) : String :=
  match n with
  | Int.ofNat m => String.mk (natChars (m + 1) m)
  | Int.negSucc m => String.mk ('-' :: natChars (m + 2) (m + 1))

/-- JavaScript `String(v)` for the values that can reach `normalizeText`. -/
def jsToString : Value → String
  | Value.str s => s
  | Value.num n => jsIntString n
  | Value.nonfinite t => t
  | Value.null => "null"

/-- The placeholder test `/^(undefined|null|n\/a|na|-)$/i.test(text)`. -/
def isPlaceholder (text : String) : Bool :=
  ["undefined", "null", "n/a", "na", "-"].contains (lowerStr text)

/-- `normalizeText` from MappingModal.tsx: undefined/null collapse to "",
otherwise stringify, trim, and collapse placeholder tokens to "". -/
def normalizeText (val : Option Value) : String :=
  match val with
  | none => ""
  | some Value.null => ""
  | some v =>
    let text := trimStr (jsToString v)
    if text = "" then ""
    else if isPlaceholder text then ""
    else text

/-- The ASCII digits of a string, in order (`str.replace(/[^0-9]/g, '')`). -/
def digitRun (s : String) : List Char :=
  s.data.filter Char.isDigit

/-- Base-10 value of a digit run (`parseInt(digits, 10)` on a pure digit
string). -/
def digitsToNat (ds : List Char) : Nat :=
  ds.foldl (fun acc c => acc * 10 + (c.toNat - 48)) 0

/-- `parsePrice` from MappingModal.tsx: a finite number is returned
unchanged, a non-finite number gives 0; anything else is normalized as
text, stripped to its digits and parsed, defaulting to 0. -/
def parsePrice (val : Option Value) : Int :=
  match val with
  | some (Value.num n) => n
  | some (Value.nonfinite _) => 0
  | _ =>
    let str := normalizeText val
    if str = "" then 0
    else
      let ds := digitRun str
      if ds.isEmpty then 0 else (digitsToNat ds : Int)

/-- Does `pat` start the character list? -/
def chStarts : List Char → List Char → Bool
  | [], _ => true
  | _ :: _, [] => false
  | p :: ps, c :: cs => p == c && chStarts ps cs

/-- Does `pat` occur somewhere in the character list? -/
def chFind (pat : List Char) : List Char → Bool
  | [] => pat.isEmpty
  | c :: rest => chStarts pat (c :: rest) || chFind pat rest

/-- A case-insensitive alternation test: does the string contain one of the
(lower-case) literal alternatives?  This is exactly what the semantic
category regexes of `similarityScore` (geminiService.ts) do. -/
def testPats (pats : List String) (s : String) : Bool :=
  pats.any (fun p => chFind p.data (lowerStr s).data)

/-- Category `name`: /product|name|desc|item|title|artikel|produk/i. -/
def patName : List String := ["product", "name", "desc", "item", "title", "artikel", "produk"]

/-- Category `cost`: /cost|dealer|net|wholesale|modal/i. -/
def patCost : List String := ["cost", "dealer", "net", "wholesale", "modal"]

/-- Category `srp`: /srp|msrp|retail|list|suggested|base/i. -/
def patSrp : List String := ["srp", "msrp", "retail", "list", "suggested", "base"]

/-- Category `price`: /price|harga|nilai|rate/i. -/
def patPrice : List String := ["price", "harga", "nilai", "rate"]

/-- Category `brand`: /brand|merk|merek|supplier|vendor|pabrik/i. -/
def patBrand : List String := ["brand", "merk", "merek", "supplier", "vendor", "pabrik"]

/-- Category `code`: /code|sku|id|nomor|no|kode/i. -/
def patCode : List String := ["code", "sku", "id", "nomor", "no", "kode"]

/-- Category `qty`: /qty|quantity|jumlah|stok|stock/i. -/
def patQty : List String := ["qty", "quantity", "jumlah", "stok", "stock"]

/-- All seven semantic categories, in the object-literal order of the
source. -/
def allPats : List (List String) := [patName, patCost, patSrp, patPrice, patBrand, patCode, patQty]

/-- The cost-versus-SRP anti-match condition of `similarityScore`. -/
def antiMatch (a b : String) : Bool :=
  (testPats patCost a && testPats patSrp b) || (testPats patSrp a && testPats patCost b)

/-- Number of semantic categories matched by both headers (the length of
the intersection of `aPatterns` and `bPatterns`). -/
def overlapCount (a b : String) : Nat :=
  (allPats.filter (fun p => testPats p a && testPats p b)).length

/-- Positional character coincidences up to the shorter length. -/
def matchCount : List Char → List Char → Nat
  | a :: as, b :: bs => (if a = b then 1 else 0) + matchCount as bs
  | _, _ => 0

/-- `similarityScore` from geminiService.ts: 1.0 on case-insensitive
equality; 0.2 on the cost/SRP anti-match; 0.9 on any shared semantic
category; otherwise positional overlap divided by the longer length. -/
def similarityScore (a b : String) : ℚ :=
  if lowerStr a = lowerStr b then 1
  else if antiMatch a b then 0.2
  else if 0 < overlapCount a b then 0.9
  else (matchCount (lowerStr a).data (lowerStr b).data : ℚ) /
    ((max (lowerStr a).length (lowerStr b).length : ℕ) : ℚ)

/-- The harmonizer's merge test `similarityScore(key, otherKey) >= 0.75`. -/
def simThresh (a b : String) : Bool :=
  decide ((0.75 : ℚ) ≤ similarityScore a b)

/-- The inner loop of `harmonizeColumnNames`: scan every key, skipping the
already-assigned ones, and collect those similar enough to the canonical
key (threading the assigned set, which the loop grows as it adds). -/
def pickMembers (canon : String) : List String → List String → List String
  | [], _ => []
  | o :: rest, assigned =>
    if o ∈ assigned then pickMembers canon rest assigned
    else if simThresh canon o then o :: pickMembers canon rest (o :: assigned)
    else pickMembers canon rest assigned

/-- The outer loop of `harmonizeColumnNames`: iterate the keys in order;
each unassigned key opens a group as its canonical key, then absorbs every
still-unassigned similar key. -/
def groupsGo (allKeys : List String) : List String → List String → List (String × List String)
  | [], _ => []
  | k :: rest, assigned =>
    if k ∈ assigned then groupsGo allKeys rest assigned
    else
      let ms := pickMembers k allKeys (k :: assigned)
      (k, k :: ms) :: groupsGo allKeys rest (assigned ++ k :: ms)

/-- The header groups built from the batch's key union. -/
def buildGroups (allKeys : List String) : List (String × List String) :=
  groupsGo allKeys allKeys []

/-- First variant (canonical key first) present as an own key on the row. -/
def firstPresent (row : Row) : List String → Option Value
  | [] => none
  | k :: ks =>
    match rowGet row k with
    | some v => some v
    | none => firstPresent row ks

/-- Rewrite one row onto canonical keys: for each group, copy the value of
its first present variant under the canonical key. -/
def rewriteRow (groups : List (String × List String)) (row : Row) : Row :=
  match groups with
  | [] => []
  | (canon, variants) :: gs =>
    match firstPresent row variants with
    | some v => (canon, v) :: rewriteRow gs row
    | none => rewriteRow gs row

/-- `harmonizeColumnNames` from geminiService.ts. -/
def harmonizeColumnNames (rows : List Row) : List Row :=
  if rows.isEmpty then rows
  else
    let allKeys := allKeysOf rows
    if allKeys.isEmpty then rows
    else rows.map (rewriteRow (buildGroups allKeys))

/-- A per-row manual override record (`manualRetagByRow` entry). -/
structure ManualRetag where
  name : Option String := none
  costPrice : Option Int := none
  srpPrice : Option Int := none
deriving DecidableEq

/-- The user-declared column mapping (types.ts `ColumnMapping`); absent
optional fields are the empty list / `none`, matching the `|| []` and
truthiness checks in the source. -/
structure ColumnMapping where
  nameField : String := ""
  costField : String := ""
  srpField : Option String := none
  brandName : String := ""
  nameFallbackFields : List String := []
  costFallbackFields : List String := []
  srpFallbackFields : List String := []
  manualRetagByRow : List (Nat × ManualRetag) := []
deriving DecidableEq

/-- `mapping.manualRetagByRow?.[rowIndex]`. -/
def lookupRetag (m : ColumnMapping) (i : Nat) : Option ManualRetag :=
  (m.manualRetagByRow.find? (fun p => p.1 == i)).map Prod.snd

/-- The candidate scan of `resolveName`: first key whose normalized cell
text is non-empty, else the empty string. -/
def firstNonemptyText (row : Row) : List String → String
  | [] => ""
  | k :: ks =>
    let v := normalizeText (rowGet row k)
    if v ≠ "" then v else firstNonemptyText row ks

/-- `resolveName` from MappingModal.tsx. -/
def resolveName (row : Row) (rowIndex : Nat) (m : ColumnMapping) : String :=
  let manualName := normalizeText (Option.map Value.str ((lookupRetag m rowIndex).bind ManualRetag.name))
  if manualName ≠ "" then manualName
  else firstNonemptyText row ((m.nameField :: m.nameFallbackFields).filter (fun k => k ≠ ""))

/-- The candidate scan of `resolveCost`/`resolveSrp`: first key whose
parsed price is positive, else 0. -/
def firstPositivePrice (row : Row) : List String → Int
  | [] => 0
  | k :: ks =>
    let v := parsePrice (rowGet row k)
    if 0 < v then v else firstPositivePrice row ks

/-- `resolveCost` from MappingModal.tsx. -/
def resolveCost (row : Row) (rowIndex : Nat) (m : ColumnMapping) : Int :=
  let manualCost := ((lookupRetag m rowIndex).bind ManualRetag.costPrice).getD 0
  if 0 < manualCost then manualCost
  else firstPositivePrice row ((m.costField :: m.costFallbackFields).filter (fun k => k ≠ ""))

/-- `resolveSrp` from MappingModal.tsx: manual override first, then an
immediate 0 when no (truthy) `srpField` is configured, then the candidate
scan. -/
def resolveSrp (row : Row) (rowIndex : Nat) (m : ColumnMapping) : Int :=
  let manualSrp := ((lookupRetag m rowIndex).bind ManualRetag.srpPrice).getD 0
  if 0 < manualSrp then manualSrp
  else
    match m.srpField with
    | none => 0
    | some sf =>
      if sf = "" then 0
      else firstPositivePrice row ((sf :: m.srpFallbackFields).filter (fun k => k ≠ ""))

/-- `getUnresolvedReason` from MappingModal.tsx. -/
def getUnresolvedReason (name : String) (cost : Int) : String :=
  if name = "" ∧ cost ≤ 0 then "Missing Product Name and Cost Price"
  else if name = "" then "Missing Product Name"
  else "Missing Cost Price"

/-- `getPopulatedColumns` from MappingModal.tsx. -/
def getPopulatedColumns (row : Row) : List String :=
  (rowKeys row).filter (fun k => normalizeText (rowGet row k) ≠ "")

/-- One entry of the readiness analysis (the record pushed into `rows`;
the entries pushed into `unresolved` carry the same fields and are exactly
the entries with `isResolved = false`). -/
structure AnalyzedRow where
  index : Nat
  row : Row
  currentName : String
  currentCost : Int
  isResolved : Bool
  reason : String
  hasName : Bool
  hasCost : Bool
  populatedColumns : List String
deriving DecidableEq

/-- The per-row body of the `data.forEach` in `importAnalysis`. -/
def analyzeRow (m : ColumnMapping) (i : Nat) (row : Row) : AnalyzedRow :=
  let currentName := resolveName row i m
  let currentCost := resolveCost row i m
  let hasName := currentName ≠ ""
  let hasCost := 0 < currentCost
  { index := i
    row := row
    currentName := currentName
    currentCost := currentCost
    isResolved := decide (hasName ∧ hasCost)
    reason := getUnresolvedReason currentName currentCost
    hasName := decide hasName
    hasCost := decide hasCost
    populatedColumns := getPopulatedColumns row }

/-- The batch-level aggregates returned by `importAnalysis`. -/
structure Analysis where
  total : Nat
  ready : Nat
  unresolved : List AnalyzedRow
  rows : List AnalyzedRow
deriving DecidableEq

/-- `importAnalysis` from MappingModal.tsx: analyze every row with its
index; `ready` counts the resolved ones and `unresolved` lists the others
in order. -/
def importAnalysis (data : List Row) (m : ColumnMapping) : Analysis :=
  let rows := data.enum.map (fun p => analyzeRow m p.1 p.2)
  { total := data.length
    ready := (rows.filter (fun r => r.isResolved)).length
    unresolved := rows.filter (fun r => !r.isResolved)
    rows := rows }

/-- Extensional equality of rows as key-to-value mappings (the spec's
RawRow is an ordered-irrelevant mapping). -/
def rowEquiv (r s : Row) : Prop :=
  ∀ k, rowGet r k = rowGet s k

/-- Row 0 of the end-to-end scenario of the spec (§8). -/
def c2row0 : Row := [("Desc", Value.str "Sony A7C"), ("Net", Value.str "24.845")]

/-- Row 1 of the end-to-end scenario of the spec (§8). -/
def c2row1 : Row := [("Desc", Value.str ""), ("Net", Value.str "91.199")]

/-- The batch of the end-to-end scenario. -/
def c2data : List Row := [c2row0, c2row1]

/-- The mapping of the end-to-end scenario, no overrides. -/
def c2map : ColumnMapping := { nameField := "Desc", costField := "Net" }

/-- The same mapping with the manual override `{1: {name:"Unknown Item"}}`. -/
def c2mapOv : ColumnMapping :=
  { c2map with manualRetagByRow := [(1, { name := some "Unknown Item" })] }

/-- A sample row for exercising the resolver priority chain. -/
def c1row : Row := [("A", Value.str "Primary Co"), ("B", Value.str "Fallback Co")]

/-- A mapping with manual overrides for row 0 (name and cost). -/
def c1map : ColumnMapping :=
  { nameField := "A", costField := "A", nameFallbackFields := ["B"],
    manualRetagByRow := [(0, { name := some "Manual Co", costPrice := some 7 })] }

/-- A two-row batch with two similar cost headers, for the grouping
theorems. -/
def c6rows : List Row :=
  [[("Cost Price", Value.str "100")], [("Dealer Price", Value.str "120")]]

/-- A batch whose second row has zero headers. -/
def c7rows : List Row := [[("Name", Value.str "x")], []]

/-- A row holding an SRP-looking value in column "S". -/
def c8row : Row := [("S", Value.str "5")]

/-- A mapping with no `srpField` but with an SRP fallback column and a
manual SRP override for row 0. -/
def c8map : ColumnMapping :=
  { nameField := "N", costField := "C", srpField := none, srpFallbackFields := ["S"],
    manualRetagByRow := [(0, { srpPrice := some 9 })] }

/-- A one-row batch whose single row has a name but no usable cost. -/
def c9data : List Row := [[("N", Value.str "x")]]

/-- A mapping pointing both name and cost at the same non-numeric column. -/
def c9map : ColumnMapping := { nameField := "N", costField := "N" }

/-- The analysis record of the single row of `c9data`. -/
def c9row0 : AnalyzedRow := analyzeRow c9map 0 [("N", Value.str "x")]

theorem matchCount_comm (xs ys : List Char) : matchCount xs ys = matchCount ys xs := by
  induction xs generalizing ys with
  | nil => cases ys <;> rfl
  | cons x xs ih =>
    cases ys with
    | nil => rfl
    | cons y ys =>
      show (if x = y then 1 else 0) + matchCount xs ys = (if y = x then 1 else 0) + matchCount ys xs
      rw [ih]
      by_cases h : x = y
      · rw [if_pos h, if_pos h.symm]
      · rw [if_neg h, if_neg (fun hh => h hh.symm)]

theorem overlapCount_comm (a b : String) : overlapCount a b = overlapCount b a := by
  unfold overlapCount
  congr 1
  apply List.filter_congr
  intro p _
  rw [Bool.and_comm]

theorem antiMatch_comm (a b : String) : antiMatch a b = antiMatch b a := by
  cases hca : testPats patCost a <;> cases hsa : testPats patSrp a <;>
    cases hcb : testPats patCost b <;> cases hsb : testPats patSrp b <;>
      simp [antiMatch, hca, hsa, hcb, hsb]

theorem simScore_comm (a b : String) : similarityScore a b = similarityScore b a := by
  unfold similarityScore
  by_cases h1 : lowerStr a = lowerStr b
  · simp only [if_pos h1, if_pos h1.symm]
  · have h1b : ¬ lowerStr b = lowerStr a := fun hh => h1 hh.symm
    simp only [if_neg h1, if_neg h1b, antiMatch_comm a b]
    by_cases h2 : antiMatch b a = true
    · simp only [if_pos h2]
    · simp only [if_neg h2, overlapCount_comm a b]
      by_cases h3 : 0 < overlapCount b a
      · simp only [if_pos h3]
      · simp only [if_neg h3, matchCount_comm, Nat.max_comm]

theorem simThresh_comm (a b : String) : simThresh a b = simThresh b a := by
  unfold simThresh
  rw [simScore_comm]

theorem firstNonemptyText_spec (row : Row) (ks : List String) :
    (∃ pre k post, ks = pre ++ k :: post ∧
      (∀ k2 ∈ pre, normalizeText (rowGet row k2) = "") ∧
      normalizeText (rowGet row k) ≠ "" ∧
      firstNonemptyText row ks = normalizeText (rowGet row k)) ∨
    ((∀ k ∈ ks, normalizeText (rowGet row k) = "") ∧ firstNonemptyText row ks = "") := by
  induction ks with
  | nil => right; exact ⟨by simp, rfl⟩
  | cons k ks ih =>
    by_cases h : normalizeText (rowGet row k) = ""
    · rcases ih with ⟨pre, k2, post, heq, hpre, hk2, hres⟩ | ⟨hall, hres⟩
      · left
        refine ⟨k :: pre, k2, post, by rw [heq, List.cons_append], ?_, hk2, ?_⟩
        · intro x hx
          rcases List.mem_cons.mp hx with rfl | hx
          · exact h
          · exact hpre x hx
        · show (if normalizeText (rowGet row k) ≠ "" then normalizeText (rowGet row k)
            else firstNonemptyText row ks) = normalizeText (rowGet row k2)
          rw [if_neg (fun hh => hh h)]
          exact hres
      · right
        refine ⟨?_, ?_⟩
        · intro x hx
          rcases List.mem_cons.mp hx with rfl | hx
          · exact h
          · exact hall x hx
        · show (if normalizeText (rowGet row k) ≠ "" then normalizeText (rowGet row k)
            else firstNonemptyText row ks) = ""
          rw [if_neg (fun hh => hh h)]
          exact hres
    · left
      refine ⟨[], k, ks, rfl, by simp, h, ?_⟩
      show (if normalizeText (rowGet row k) ≠ "" then normalizeText (rowGet row k)
        else firstNonemptyText row ks) = normalizeText (rowGet row k)
      rw [if_pos h]

theorem firstPositivePrice_spec (row : Row) (ks : List String) :
    (∃ pre k post, ks = pre ++ k :: post ∧
      (∀ k2 ∈ pre, parsePrice (rowGet row k2) ≤ 0) ∧
      0 < parsePrice (rowGet row k) ∧
      firstPositivePrice row ks = parsePrice (rowGet row k)) ∨
    ((∀ k ∈ ks, parsePrice (rowGet row k) ≤ 0) ∧ firstPositivePrice row ks = 0) := by
  induction ks with
  | nil => right; exact ⟨by simp, rfl⟩
  | cons k ks ih =>
    by_cases h : 0 < parsePrice (rowGet row k)
    · left
      refine ⟨[], k, ks, rfl, by simp, h, ?_⟩
      show (if 0 < parsePrice (rowGet row k) then parsePrice (rowGet row k)
        else firstPositivePrice row ks) = parsePrice (rowGet row k)
      rw [if_pos h]
    · have hle : parsePrice (rowGet row k) ≤ 0 := not_lt.mp h
      rcases ih with ⟨pre, k2, post, heq, hpre, hk2, hres⟩ | ⟨hall, hres⟩
      · left
        refine ⟨k :: pre, k2, post, by rw [heq, List.cons_append], ?_, hk2, ?_⟩
        · intro x hx
          rcases List.mem_cons.mp hx with rfl | hx
          · exact hle
          · exact hpre x hx
        · show (if 0 < parsePrice (rowGet row k) then parsePrice (rowGet row k)
            else firstPositivePrice row ks) = parsePrice (rowGet row k2)
          rw [if_neg h]
          exact hres
      · right
        refine ⟨?_, ?_⟩
        · intro x hx
          rcases List.mem_cons.mp hx with rfl | hx
          · exact hle
          · exact hall x hx
        · show (if 0 < parsePrice (rowGet row k) then parsePrice (rowGet row k)
            else firstPositivePrice row ks) = 0
          rw [if_neg h]
          exact hres

theorem parsePrice_str_nonneg (s : String) : 0 ≤ parsePrice (some (Value.str s)) := by
  show 0 ≤ (if normalizeText (some (Value.str s)) = "" then 0
    else if (digitRun (normalizeText (some (Value.str s)))).isEmpty then 0
    else ((digitsToNat (digitRun (normalizeText (some (Value.str s))))) : Int))
  split
  · exact le_refl 0
  · split
    · exact le_refl 0
    · exact Int.natCast_nonneg _

theorem length_filter_split {α : Type} (l : List α) (p : α → Bool) :
    (l.filter p).length + (l.filter (fun x => !p x)).length = l.length := by
  induction l with
  | nil => rfl
  | cons x xs ih =>
    cases h : p x <;> simp [List.filter_cons, h] <;> omega

theorem mem_dedupFirst (x : String) (l : List String) :
    ∀ seen, x ∈ dedupFirst l seen ↔ x ∈ l ∧ x ∉ seen := by
  induction l with
  | nil => intro seen; simp [dedupFirst]
  | cons k rest ih =>
    intro seen
    by_cases hk : k ∈ seen
    · rw [dedupFirst, if_pos hk, ih]
      constructor
      · rintro ⟨h1, h2⟩
        exact ⟨List.mem_cons_of_mem _ h1, h2⟩
      · rintro ⟨h1, h2⟩
        rcases List.mem_cons.mp h1 with rfl | h1
        · exact absurd hk h2
        · exact ⟨h1, h2⟩
    · rw [dedupFirst, if_neg hk]
      constructor
      · intro hx
        rcases List.mem_cons.mp hx with rfl | hx
        · exact ⟨List.mem_cons_self _ _, hk⟩
        · obtain ⟨h1, h2⟩ := (ih (k :: seen)).mp hx
          exact ⟨List.mem_cons_of_mem _ h1, fun hs => h2 (List.mem_cons_of_mem _ hs)⟩
      · rintro ⟨h1, h2⟩
        rcases List.mem_cons.mp h1 with rfl | h1
        · exact List.mem_cons_self _ _
        · by_cases hxk : x = k
          · subst hxk; exact List.mem_cons_self _ _
          · refine List.mem_cons_of_mem _ ((ih (k :: seen)).mpr ⟨h1, ?_⟩)
            intro hs
            rcases List.mem_cons.mp hs with h | h
            · exact hxk h
            · exact h2 h

theorem nodup_dedupFirst (l : List String) : ∀ seen, (dedupFirst l seen).Nodup := by
  induction l with
  | nil => intro seen; exact List.nodup_nil
  | cons k rest ih =>
    intro seen
    by_cases hk : k ∈ seen
    · rw [dedupFirst, if_pos hk]; exact ih seen
    · rw [dedupFirst, if_neg hk]
      refine List.nodup_cons.mpr ⟨?_, ih (k :: seen)⟩
      intro hmem
      exact ((mem_dedupFirst k rest (k :: seen)).mp hmem).2 (List.mem_cons_self _ _)

theorem mem_rowKeys (x : String) (row : Row) :
    x ∈ rowKeys row ↔ x ∈ row.map Prod.fst := by
  rw [rowKeys, mem_dedupFirst]
  simp

theorem rowGet_eq_none_iff (row : Row) (k : String) :
    rowGet row k = none ↔ k ∉ row.map Prod.fst := by
  induction row with
  | nil => simp [rowGet]
  | cons p rest ih =>
    obtain ⟨k2, v⟩ := p
    by_cases h : k2 = k
    · subst h
      rw [rowGet, if_pos rfl]
      simp
    · rw [rowGet, if_neg h, ih]
      simp [List.mem_cons]
      intro _
      exact fun hh => h hh.symm

theorem mem_allKeysOf (x : String) (rows : List Row) :
    x ∈ allKeysOf rows ↔ ∃ r ∈ rows, x ∈ rowKeys r := by
  rw [allKeysOf, mem_dedupFirst]
  simp [List.mem_flatMap]

theorem nodup_allKeysOf (rows : List Row) : (allKeysOf rows).Nodup :=
  nodup_dedupFirst _ []

theorem mem_pickMembers (canon x : String) (keys : List String) :
    ∀ assigned, x ∈ pickMembers canon keys assigned ↔
      x ∈ keys ∧ x ∉ assigned ∧ simThresh canon x = true := by
  induction keys with
  | nil => intro assigned; simp [pickMembers]
  | cons o rest ih =>
    intro assigned
    rw [pickMembers]
    by_cases ho : o ∈ assigned
    · rw [if_pos ho, ih]
      constructor
      · rintro ⟨h1, h2, h3⟩
        exact ⟨List.mem_cons_of_mem _ h1, h2, h3⟩
      · rintro ⟨h1, h2, h3⟩
        rcases List.mem_cons.mp h1 with rfl | h1
        · exact absurd ho h2
        · exact ⟨h1, h2, h3⟩
    · rw [if_neg ho]
      by_cases hth : simThresh canon o = true
      · rw [if_pos hth]
        constructor
        · intro hx
          rcases List.mem_cons.mp hx with rfl | hx
          · exact ⟨List.mem_cons_self _ _, ho, hth⟩
          · obtain ⟨h1, h2, h3⟩ := (ih (o :: assigned)).mp hx
            exact ⟨List.mem_cons_of_mem _ h1,
              fun hs => h2 (List.mem_cons_of_mem _ hs), h3⟩
        · rintro ⟨h1, h2, h3⟩
          rcases List.mem_cons.mp h1 with rfl | h1
          · exact List.mem_cons_self _ _
          · by_cases hxo : x = o
            · subst hxo; exact List.mem_cons_self _ _
            · refine List.mem_cons_of_mem _ ((ih (o :: assigned)).mpr ⟨h1, ?_, h3⟩)
              intro hs
              rcases List.mem_cons.mp hs with h | h
              · exact hxo h
              · exact h2 h
      · rw [if_neg hth, ih]
        constructor
        · rintro ⟨h1, h2, h3⟩
          exact ⟨List.mem_cons_of_mem _ h1, h2, h3⟩
        · rintro ⟨h1, h2, h3⟩
          rcases List.mem_cons.mp h1 with rfl | h1
          · exact absurd h3 hth
          · exact ⟨h1, h2, h3⟩

theorem groupsGo_canon_shape (ks : List String) (rem : List String) :
    ∀ assigned, ∀ g ∈ groupsGo ks rem assigned,
      g.1 ∉ assigned ∧ g.1 ∈ rem ∧
      ∃ a0 : List String, g.2 = g.1 :: pickMembers g.1 ks (g.1 :: a0) := by
  induction rem with
  | nil => intro assigned g hg; simp [groupsGo] at hg
  | cons k rest ih =>
    intro assigned g hg
    simp only [groupsGo] at hg
    by_cases hk : k ∈ assigned
    · rw [if_pos hk] at hg
      obtain ⟨h1, h2, h3⟩ := ih assigned g hg
      exact ⟨h1, List.mem_cons_of_mem _ h2, h3⟩
    · rw [if_neg hk] at hg
      rcases List.mem_cons.mp hg with rfl | hg
      · exact ⟨hk, List.mem_cons_self _ _, ⟨assigned, rfl⟩⟩
      · obtain ⟨h1, h2, h3⟩ := ih _ g hg
        exact ⟨fun ha => h1 (List.mem_append_left _ ha), List.mem_cons_of_mem _ h2, h3⟩

theorem groupsGo_members (ks : List String) (rem : List String) :
    ∀ assigned, ∀ g ∈ groupsGo ks rem assigned, ∀ x ∈ g.2,
      x ∉ assigned ∧ (x ∈ rem ∨ x ∈ ks) := by
  induction rem with
  | nil => intro assigned g hg; simp [groupsGo] at hg
  | cons k rest ih =>
    intro assigned g hg x hx
    simp only [groupsGo] at hg
    by_cases hk : k ∈ assigned
    · rw [if_pos hk] at hg
      obtain ⟨h1, h2⟩ := ih assigned g hg x hx
      exact ⟨h1, h2.elim (fun h => Or.inl (List.mem_cons_of_mem _ h)) Or.inr⟩
    · rw [if_neg hk] at hg
      rcases List.mem_cons.mp hg with rfl | hg
      · rcases List.mem_cons.mp hx with rfl | hx
        · exact ⟨hk, Or.inl (List.mem_cons_self _ _)⟩
        · obtain ⟨m1, m2, _⟩ := (mem_pickMembers k x ks (k :: assigned)).mp hx
          exact ⟨fun hA => m2 (List.mem_cons_of_mem _ hA), Or.inr m1⟩
      · obtain ⟨h1, h2⟩ := ih _ g hg x hx
        refine ⟨fun hA => h1 (List.mem_append_left _ hA), ?_⟩
        exact h2.elim (fun h => Or.inl (List.mem_cons_of_mem _ h)) Or.inr

theorem groupsGo_cover (ks : List String) (rem : List String) :
    ∀ assigned, ∀ x ∈ rem, x ∉ assigned →
      ∃ g ∈ groupsGo ks rem assigned, x ∈ g.2 := by
  induction rem with
  | nil => intro assigned x hx; simp at hx
  | cons k rest ih =>
    intro assigned x hx hxA
    simp only [groupsGo]
    by_cases hk : k ∈ assigned
    · rw [if_pos hk]
      rcases List.mem_cons.mp hx with rfl | hx
      · exact absurd hk hxA
      · exact ih assigned x hx hxA
    · rw [if_neg hk]
      by_cases hxg : x ∈ k :: pickMembers k ks (k :: assigned)
      · exact ⟨(k, k :: pickMembers k ks (k :: assigned)), List.mem_cons_self _ _, hxg⟩
      · rcases List.mem_cons.mp hx with rfl | hx
        · exact absurd (List.mem_cons_self _ _) hxg
        · obtain ⟨g, hg1, hg2⟩ :=
            ih (assigned ++ k :: pickMembers k ks (k :: assigned)) x hx (by
              intro hmem
              rcases List.mem_append.mp hmem with h | h
              · exact hxA h
              · exact hxg h)
          exact ⟨g, List.mem_cons_of_mem _ hg1, hg2⟩

theorem groupsGo_disjoint (ks : List String) (rem : List String) :
    ∀ assigned,
      List.Pairwise (fun g g2 => ∀ x ∈ g.2, x ∉ g2.2) (groupsGo ks rem assigned) := by
  induction rem with
  | nil => intro assigned; simp [groupsGo]
  | cons k rest ih =>
    intro assigned
    simp only [groupsGo]
    by_cases hk : k ∈ assigned
    · rw [if_pos hk]; exact ih assigned
    · rw [if_neg hk]
      refine List.pairwise_cons.mpr ⟨?_, ih _⟩
      intro g2 hg2 x hx hxg2
      have h1 := (groupsGo_members ks rest _ g2 hg2 x hxg2).1
      exact h1 (List.mem_append_right _ hx)

theorem groupsGo_first (ks : List String) (rem : List String) :
    ∀ assigned, rem <:+ ks → (∀ x ∈ ks, x ∉ assigned → x ∈ rem) →
      ∀ g ∈ groupsGo ks rem assigned,
        ∃ pre suf, ks = pre ++ g.1 :: suf ∧ ∀ m2 ∈ g.2, m2 = g.1 ∨ m2 ∈ suf := by
  induction rem with
  | nil => intro assigned _ _ g hg; simp [groupsGo] at hg
  | cons k rest ih =>
    intro assigned hsuf hinv g hg
    simp only [groupsGo] at hg
    by_cases hk : k ∈ assigned
    · rw [if_pos hk] at hg
      refine ih assigned ((List.suffix_cons k rest).trans hsuf) ?_ g hg
      intro x hx hxA
      rcases List.mem_cons.mp (hinv x hx hxA) with rfl | hr
      · exact absurd hk hxA
      · exact hr
    · rw [if_neg hk] at hg
      rcases List.mem_cons.mp hg with rfl | hg
      · obtain ⟨pre, hpre⟩ := hsuf
        refine ⟨pre, rest, hpre.symm, ?_⟩
        intro m2 hm2
        rcases List.mem_cons.mp hm2 with rfl | hm2
        · exact Or.inl rfl
        · obtain ⟨m1, mA, _⟩ := (mem_pickMembers k m2 ks (k :: assigned)).mp hm2
          have hm2A : m2 ∉ assigned := fun h => mA (List.mem_cons_of_mem _ h)
          rcases List.mem_cons.mp (hinv m2 m1 hm2A) with rfl | hr
          · exact absurd (List.mem_cons_self _ _) mA
          · exact Or.inr hr
      · refine ih _ ((List.suffix_cons k rest).trans hsuf) ?_ g hg
        intro x hx hxA
        have hxA2 : x ∉ assigned := fun h => hxA (List.mem_append_left _ h)
        rcases List.mem_cons.mp (hinv x hx hxA2) with rfl | hr
        · exact absurd (List.mem_append_right _ (List.mem_cons_self _ _)) hxA
        · exact hr

theorem groupsGo_canon_far (ks : List String) (rem : List String) :
    ∀ assigned, (∀ x ∈ rem, x ∈ ks) →
      List.Pairwise (fun g g2 => simThresh g.1 g2.1 = false) (groupsGo ks rem assigned) := by
  induction rem with
  | nil => intro assigned _; simp [groupsGo]
  | cons k rest ih =>
    intro assigned hsub
    simp only [groupsGo]
    by_cases hk : k ∈ assigned
    · rw [if_pos hk]
      exact ih assigned (fun x hx => hsub x (List.mem_cons_of_mem _ hx))
    · rw [if_neg hk]
      refine List.pairwise_cons.mpr ⟨?_, ih _ (fun x hx => hsub x (List.mem_cons_of_mem _ hx))⟩
      intro g2 hg2
      cases hth : simThresh k g2.1 with
      | false => rfl
      | true =>
        exfalso
        obtain ⟨hA2, hrem, _⟩ := groupsGo_canon_shape ks rest _ g2 hg2
        have hks : g2.1 ∈ ks := hsub _ (List.mem_cons_of_mem _ hrem)
        have hnotkA : g2.1 ∉ k :: assigned := by
          intro hmem
          rcases List.mem_cons.mp hmem with h | h
          · refine hA2 (List.mem_append_right _ ?_)
            rw [h]
            exact List.mem_cons_self _ _
          · exact hA2 (List.mem_append_left _ h)
        have hpick : g2.1 ∈ pickMembers k ks (k :: assigned) :=
          (mem_pickMembers k g2.1 ks (k :: assigned)).mpr ⟨hks, hnotkA, hth⟩
        exact hA2 (List.mem_append_right _ (List.mem_cons_of_mem _ hpick))

theorem firstPresent_some (r : Row) (ks : List String) (v : Value) :
    firstPresent r ks = some v → ∃ k ∈ ks, rowGet r k = some v := by
  induction ks with
  | nil => intro h; simp [firstPresent] at h
  | cons k rest ih =>
    intro h
    rw [firstPresent] at h
    cases hk : rowGet r k with
    | some w =>
      rw [hk] at h
      exact ⟨k, List.mem_cons_self _ _, hk.trans h⟩
    | none =>
      rw [hk] at h
      obtain ⟨k2, hk2, hv⟩ := ih h
      exact ⟨k2, List.mem_cons_of_mem _ hk2, hv⟩

theorem firstPresent_single (r : Row) (k : String) :
    firstPresent r [k] = rowGet r k := by
  rw [firstPresent]
  cases h : rowGet r k <;> simp [firstPresent]

theorem rowGet_rewriteRow_not_canon (r : Row) (gs : List (String × List String)) :
    ∀ x, x ∉ gs.map Prod.fst → rowGet (rewriteRow gs r) x = none := by
  induction gs with
  | nil => intro x _; rfl
  | cons g0 gs ih =>
    intro x hx
    obtain ⟨canon, variants⟩ := g0
    have hxc : ¬ canon = x := by
      intro h
      exact hx (by simpa using Or.inl h.symm)
    have hxg : x ∉ gs.map Prod.fst := by
      intro h
      exact hx (by simpa using Or.inr h)
    rw [rewriteRow]
    cases hfp : firstPresent r variants with
    | none => exact ih x hxg
    | some v =>
      rw [rowGet, if_neg hxc]
      exact ih x hxg

theorem rowGet_rewriteRow (r : Row) (gs : List (String × List String)) :
    (gs.map Prod.fst).Nodup →
      ∀ g ∈ gs, rowGet (rewriteRow gs r) g.1 = firstPresent r g.2 := by
  induction gs with
  | nil => intro _ g hg; simp at hg
  | cons g0 gs ih =>
    intro hnd g hg
    obtain ⟨canon, variants⟩ := g0
    have hnd2 : (gs.map Prod.fst).Nodup := (List.nodup_cons.mp (by simpa using hnd)).2
    have hcnotin : canon ∉ gs.map Prod.fst := (List.nodup_cons.mp (by simpa using hnd)).1
    rw [rewriteRow]
    rcases List.mem_cons.mp hg with rfl | hg
    · cases hfp : firstPresent r variants with
      | some v => rw [rowGet, if_pos rfl]
      | none => exact rowGet_rewriteRow_not_canon r gs canon hcnotin
    · have hne : ¬ canon = g.1 := by
        intro h
        rw [h] at hcnotin
        exact hcnotin (List.mem_map_of_mem Prod.fst hg)
      cases hfp : firstPresent r variants with
      | some v =>
        rw [rowGet, if_neg hne]
        exact ih hnd2 g hg
      | none => exact ih hnd2 g hg

theorem rewriteRow_keys_sub (r : Row) (gs : List (String × List String)) :
    ∀ x ∈ (rewriteRow gs r).map Prod.fst, x ∈ gs.map Prod.fst := by
  induction gs with
  | nil => intro x hx; simp [rewriteRow] at hx
  | cons g0 gs ih =>
    intro x hx
    obtain ⟨canon, variants⟩ := g0
    cases hfp : firstPresent r variants with
    | some v =>
      simp only [rewriteRow, hfp, List.map_cons, List.mem_cons] at hx
      rcases hx with h | h
      · simp [h]
      · exact List.mem_cons_of_mem _ (ih x h)
    | none =>
      simp only [rewriteRow, hfp] at hx
      exact List.mem_cons_of_mem _ (ih x hx)

theorem rewriteRow_nil_row (gs : List (String × List String)) :
    rewriteRow gs [] = [] := by
  induction gs with
  | nil => rfl
  | cons g0 gs ih =>
    obtain ⟨canon, variants⟩ := g0
    rw [rewriteRow]
    have h : firstPresent ([] : Row) variants = none := by
      induction variants with
      | nil => rfl
      | cons k rest ih2 => rw [firstPresent]; exact ih2
    rw [h]
    exact ih

theorem nodup_canonicals (ks : List String) :
    ((buildGroups ks).map Prod.fst).Nodup := by
  have hp : List.Pairwise (fun g g2 : String × List String => g.1 ≠ g2.1) (buildGroups ks) := by
    refine List.Pairwise.imp_of_mem ?_ (groupsGo_disjoint ks ks [])
    intro a b ha hb hab heq
    obtain ⟨_, _, a0, hshape⟩ := groupsGo_canon_shape ks ks [] a ha
    obtain ⟨_, _, a1, hshape2⟩ := groupsGo_canon_shape ks ks [] b hb
    have h1 : a.1 ∈ a.2 := by rw [hshape]; exact List.mem_cons_self _ _
    have h2 : a.1 ∈ b.2 := by rw [heq, hshape2]; exact List.mem_cons_self _ _
    exact hab a.1 h1 h2
  exact List.pairwise_map.mpr hp

theorem harmonized_mem_canonicals (rows : List Row) (x : String) :
    x ∈ allKeysOf (rows.map (rewriteRow (buildGroups (allKeysOf rows)))) ↔
      x ∈ (buildGroups (allKeysOf rows)).map Prod.fst := by
  constructor
  · intro hx
    obtain ⟨r2, hr2, hkeys⟩ := (mem_allKeysOf x _).mp hx
    obtain ⟨r, hr, rfl⟩ := List.mem_map.mp hr2
    exact rewriteRow_keys_sub r _ x ((mem_rowKeys x _).mp hkeys)
  · intro hx
    obtain ⟨g, hg, rfl⟩ := List.mem_map.mp hx
    obtain ⟨_, hks, a0, hshape⟩ := groupsGo_canon_shape (allKeysOf rows) (allKeysOf rows) [] g hg
    obtain ⟨r, hr, hkeys⟩ := (mem_allKeysOf g.1 rows).mp hks
    have hone : rowGet r g.1 ≠ none := fun h =>
      ((rowGet_eq_none_iff r g.1).mp h) ((mem_rowKeys g.1 r).mp hkeys)
    obtain ⟨v, hv⟩ := Option.ne_none_iff_exists'.mp hone
    have hfp : firstPresent r g.2 = some v := by
      rw [hshape, firstPresent, hv]
    have hget : rowGet (rewriteRow (buildGroups (allKeysOf rows)) r) g.1 = some v := by
      rw [rowGet_rewriteRow r _ (nodup_canonicals _) g hg, hfp]
    refine (mem_allKeysOf g.1 _).mpr ⟨rewriteRow (buildGroups (allKeysOf rows)) r,
      List.mem_map_of_mem _ hr, ?_⟩
    rw [mem_rowKeys]
    by_contra hcon
    rw [← rowGet_eq_none_iff] at hcon
    rw [hcon] at hget
    exact Option.noConfusion hget

theorem singleton_groups (ks2 : List String) (gsrc : List (String × List String))
    (hsub : ∀ x ∈ ks2, x ∈ gsrc.map Prod.fst)
    (hfar : List.Pairwise (fun g g2 => simThresh g.1 g2.1 = false) gsrc) :
    ∀ g ∈ buildGroups ks2, g.2 = [g.1] := by
  intro g hg
  obtain ⟨_, hmem, a0, hshape⟩ := groupsGo_canon_shape ks2 ks2 [] g hg
  have hpick : pickMembers g.1 ks2 (g.1 :: a0) = [] := by
    rw [List.eq_nil_iff_forall_not_mem]
    intro m hm
    obtain ⟨hmks, hmA, hth⟩ := (mem_pickMembers g.1 m ks2 (g.1 :: a0)).mp hm
    have hmne : m ≠ g.1 := fun h => hmA (h ▸ List.mem_cons_self _ _)
    obtain ⟨gm, hgm, hgm1⟩ := List.mem_map.mp (hsub m hmks)
    obtain ⟨ga, hga, hga1⟩ := List.mem_map.mp (hsub g.1 hmem)
    have hne : ga ≠ gm := by
      intro h
      rw [h, hgm1] at hga1
      exact hmne hga1
    have hsymm : Symmetric (fun g g2 : String × List String => simThresh g.1 g2.1 = false) := by
      intro a b h
      rw [simThresh_comm]
      exact h
    have hfalse := hfar.forall hsymm hga hgm hne
    rw [hga1, hgm1] at hfalse
    rw [hth] at hfalse
    exact Bool.noConfusion hfalse
  rw [hshape, hpick]

theorem rewrite_singletons_equiv (ks2 : List String) (r2 : Row)
    (hsing : ∀ g ∈ buildGroups ks2, g.2 = [g.1])
    (hkeys : ∀ key ∈ rowKeys r2, key ∈ ks2) :
    rowEquiv (rewriteRow (buildGroups ks2) r2) r2 := by
  intro key
  by_cases hkey : key ∈ (buildGroups ks2).map Prod.fst
  · obtain ⟨g, hg, rfl⟩ := List.mem_map.mp hkey
    rw [rowGet_rewriteRow r2 _ (nodup_canonicals _) g hg, hsing g hg, firstPresent_single]
  · rw [rowGet_rewriteRow_not_canon r2 _ key hkey]
    by_cases hr : key ∈ rowKeys r2
    · exfalso
      obtain ⟨g, hg, hmem⟩ := groupsGo_cover ks2 ks2 [] key (hkeys key hr) (List.not_mem_nil _)
      rw [hsing g hg] at hmem
      rcases List.mem_cons.mp hmem with rfl | h
      · exact hkey (List.mem_map_of_mem Prod.fst hg)
      · exact List.not_mem_nil _ h
    · rw [eq_comm, rowGet_eq_none_iff]
      intro h
      exact hr ((mem_rowKeys key r2).mpr h)

theorem rewriteRow_value_from (r : Row) (gs : List (String × List String)) :
    ∀ k v, rowGet (rewriteRow gs r) k = some v → ∃ k2, rowGet r k2 = some v := by
  induction gs with
  | nil => intro k v h; exact Option.noConfusion h
  | cons g0 gs ih =>
    intro k v h
    obtain ⟨canon, variants⟩ := g0
    cases hfp : firstPresent r variants with
    | some w =>
      simp only [rewriteRow, hfp] at h
      rw [rowGet] at h
      by_cases hc : canon = k
      · rw [if_pos hc] at h
        obtain ⟨k2, _, hv⟩ := firstPresent_some r variants w hfp
        injection h with h
        exact ⟨k2, by rw [hv, h]⟩
      · rw [if_neg hc] at h
        exact ih k v h
    | none =>
      simp only [rewriteRow, hfp] at h
      exact ih k v h

theorem rowKeys_eq_nil (r : Row) : rowKeys r = [] → r = [] := by
  cases r with
  | nil => intro _; rfl
  | cons p rest =>
    intro h
    obtain ⟨k, v⟩ := p
    rw [rowKeys] at h
    simp [dedupFirst] at h

theorem forall₂_rowEquiv_refl (l : List Row) : List.Forall₂ rowEquiv l l :=
  List.forall₂_same.mpr (fun _ _ _ => rfl)

/-- C10: the Header Similarity Scorer is exactly commutative: for every
pair of strings a and b, similarityScore(a, b) = similarityScore(b, a). -/
theorem spec_c10_score_commutative (a b : String) :
    similarityScore a b = similarityScore b a :=
  simScore_comm a b

/-- C4: anti-match rule of the Header Similarity Scorer: whenever two
headers are not case-insensitively equal and one matches the cost category
while the other matches the srp category (in either direction), the score
is exactly 0.2, regardless of any other category overlap. -/
theorem spec_c4_anti_match (a b : String)
    (hne : lowerStr a ≠ lowerStr b)
    (hanti : (testPats patCost a = true ∧ testPats patSrp b = true) ∨
      (testPats patSrp a = true ∧ testPats patCost b = true)) :
    similarityScore a b = 0.2 := by
  have hb : antiMatch a b = true := by
    rcases hanti with ⟨h1, h2⟩ | ⟨h1, h2⟩ <;> simp [antiMatch, h1, h2]
  rw [similarityScore, if_neg hne, if_pos hb]

theorem spec_c4_witness :
    lowerStr "Cost Price" ≠ lowerStr "SRP Price" ∧
    similarityScore "Cost Price" "SRP Price" = 0.2 :=
  ⟨by decide,
    spec_c4_anti_match "Cost Price" "SRP Price" (by decide)
      (Or.inl ⟨by decide, by decide⟩)⟩

/-- C3 counterexample: the Price Normalizer is not non-negative on every
input.  The already-finite numeric input -5 is returned unchanged, so
parsePrice(-5) = -5 < 0 (the digit-stripping rule only applies to string
inputs). -/
theorem spec_c3_counterexample :
    parsePrice (some (Value.num (-5))) = -5 ∧
    parsePrice (some (Value.num (-5))) < 0 :=
  ⟨rfl, by decide⟩

/-- C3 amended: the Price Normalizer output is a non-negative integer for
every string input (in particular parsePrice("-5") = 5), and for absent /
null cells; an already-finite numeric input is returned unchanged (hence
may be negative, as parsePrice(-5) = -5 shows), and a non-finite numeric
input normalizes to 0. -/
theorem spec_c3_amended :
    (∀ s : String, 0 ≤ parsePrice (some (Value.str s))) ∧
    parsePrice (some (Value.str "-5")) = 5 ∧
    (∀ n : Int, parsePrice (some (Value.num n)) = n) ∧
    (∀ t : String, parsePrice (some (Value.nonfinite t)) = 0) ∧
    parsePrice none = 0 ∧ parsePrice (some Value.null) = 0 :=
  ⟨parsePrice_str_nonneg, by decide, fun _ => rfl, fun _ => rfl, rfl, rfl⟩

/-- C9: Readiness Analyzer count invariant: for every batch and mapping,
ready + length(unresolved) = total, total is the number of input rows, and
every analyzed row is classified exactly once (it is resolved iff it is
not in the unresolved list). -/
theorem spec_c9_readiness_counts (data : List Row) (m : ColumnMapping) :
    (importAnalysis data m).total = data.length ∧
    (importAnalysis data m).rows.length = data.length ∧
    (importAnalysis data m).ready + (importAnalysis data m).unresolved.length =
      (importAnalysis data m).total ∧
    ∀ r ∈ (importAnalysis data m).rows,
      (r.isResolved = true ↔ r ∉ (importAnalysis data m).unresolved) := by
  refine ⟨rfl, ?_, ?_, ?_⟩
  · show (data.enum.map fun p => analyzeRow m p.1 p.2).length = data.length
    rw [List.length_map, List.enum_length]
  · refine (length_filter_split (data.enum.map fun p => analyzeRow m p.1 p.2)
      (fun r => r.isResolved)).trans ?_
    rw [List.length_map, List.enum_length]
    rfl
  · intro r hr
    constructor
    · intro hres hmem
      have hneg := (List.mem_filter.mp hmem).2
      rw [hres] at hneg
      simp at hneg
    · intro hnm
      by_contra hres
      have hfalse : r.isResolved = false := by
        cases h : r.isResolved
        · rfl
        · exact absurd h hres
      exact hnm (List.mem_filter.mpr ⟨hr, by rw [hfalse]; rfl⟩)

theorem spec_c9_witness :
    c9row0.isResolved = true ↔ c9row0 ∉ (importAnalysis c9data c9map).unresolved :=
  (spec_c9_readiness_counts c9data c9map).2.2.2 c9row0 (by decide)

/-- C8: SRP short-circuit: whenever no srpField is configured (absent, or
the falsy empty string), resolveSrp depends only on the manual per-row SRP
override: it returns the override when positive and 0 otherwise, without
consulting any row cell or SRP fallback field. -/
theorem spec_c8_srp_short_circuit (row : Row) (i : Nat) (m : ColumnMapping)
    (h : m.srpField = none ∨ m.srpField = some "") :
    resolveSrp row i m =
      (if 0 < ((lookupRetag m i).bind ManualRetag.srpPrice).getD 0
       then ((lookupRetag m i).bind ManualRetag.srpPrice).getD 0 else 0) ∧
    ∀ (row2 : Row) (fbs : List String),
      resolveSrp row i m = resolveSrp row2 i { m with srpFallbackFields := fbs } := by
  have core : ∀ (mm : ColumnMapping), mm.srpField = none ∨ mm.srpField = some "" →
      ∀ (r : Row), resolveSrp r i mm =
        (if 0 < ((lookupRetag mm i).bind ManualRetag.srpPrice).getD 0
         then ((lookupRetag mm i).bind ManualRetag.srpPrice).getD 0 else 0) := by
    intro mm hmm r
    rcases hmm with hmm | hmm <;> simp [resolveSrp, hmm]
  refine ⟨core m h row, ?_⟩
  intro row2 fbs
  rw [core m h row, core { m with srpFallbackFields := fbs } h row2]
  rfl

theorem spec_c8_witness :
    resolveSrp c8row 0 c8map = 9 ∧ resolveSrp c8row 1 c8map = 0 := by
  constructor
  · rw [(spec_c8_srp_short_circuit c8row 0 c8map (Or.inl rfl)).1]
    decide
  · rw [(spec_c8_srp_short_circuit c8row 1 c8map (Or.inl rfl)).1]
    decide

/-- C1: Field Resolver priority chain for name and cost.  For every row,
row index and mapping: a non-empty manual override wins; otherwise the
result is determined by the configured candidate fields (the primary
field first, then the fallback fields in declared order, skipping fields
configured as the empty string, exactly the source's filter(Boolean)):
the first candidate whose normalized value is non-empty (resp. whose
parsed price is positive) provides the result, and if none does the
result is the empty string (resp. 0). -/
theorem spec_c1_resolve_priority (row : Row) (i : Nat) (m : ColumnMapping) :
    (normalizeText (Option.map Value.str ((lookupRetag m i).bind ManualRetag.name)) ≠ "" →
      resolveName row i m =
        normalizeText (Option.map Value.str ((lookupRetag m i).bind ManualRetag.name))) ∧
    (normalizeText (Option.map Value.str ((lookupRetag m i).bind ManualRetag.name)) = "" →
      (∃ pre k post,
        (m.nameField :: m.nameFallbackFields).filter (fun k2 => k2 ≠ "") = pre ++ k :: post ∧
        (∀ k2 ∈ pre, normalizeText (rowGet row k2) = "") ∧
        normalizeText (rowGet row k) ≠ "" ∧
        resolveName row i m = normalizeText (rowGet row k)) ∨
      ((∀ k ∈ (m.nameField :: m.nameFallbackFields).filter (fun k2 => k2 ≠ ""),
          normalizeText (rowGet row k) = "") ∧ resolveName row i m = "")) ∧
    (0 < ((lookupRetag m i).bind ManualRetag.costPrice).getD 0 →
      resolveCost row i m = ((lookupRetag m i).bind ManualRetag.costPrice).getD 0) ∧
    (¬ 0 < ((lookupRetag m i).bind ManualRetag.costPrice).getD 0 →
      (∃ pre k post,
        (m.costField :: m.costFallbackFields).filter (fun k2 => k2 ≠ "") = pre ++ k :: post ∧
        (∀ k2 ∈ pre, parsePrice (rowGet row k2) ≤ 0) ∧
        0 < parsePrice (rowGet row k) ∧
        resolveCost row i m = parsePrice (rowGet row k)) ∨
      ((∀ k ∈ (m.costField :: m.costFallbackFields).filter (fun k2 => k2 ≠ ""),
          parsePrice (rowGet row k) ≤ 0) ∧ resolveCost row i m = 0)) := by
  refine ⟨?_, ?_, ?_, ?_⟩
  · intro h
    exact if_pos h
  · intro h
    have hres : resolveName row i m =
        firstNonemptyText row ((m.nameField :: m.nameFallbackFields).filter (fun k2 => k2 ≠ "")) :=
      if_neg (fun hh => hh h)
    rw [hres]
    exact firstNonemptyText_spec row _
  · intro h
    exact if_pos h
  · intro h
    have hres : resolveCost row i m =
        firstPositivePrice row ((m.costField :: m.costFallbackFields).filter (fun k2 => k2 ≠ "")) :=
      if_neg h
    rw [hres]
    exact firstPositivePrice_spec row _

theorem spec_c1_witness :
    resolveName c1row 0 c1map = "Manual Co" ∧ resolveCost c1row 0 c1map = 7 := by
  constructor
  · rw [(spec_c1_resolve_priority c1row 0 c1map).1 (by decide)]
    decide
  · rw [(spec_c1_resolve_priority c1row 0 c1map).2.2.1 (by decide)]
    decide

/-- C2: end-to-end scenario of §8 of the spec: for the batch
[{Desc:"Sony A7C", Net:"24.845"}, {Desc:"", Net:"91.199"}] with mapping
{nameField:"Desc", costField:"Net"} and no overrides, row 0 resolves to
("Sony A7C", 24845, resolved) and row 1 to ("", 91199, unresolved) with
reason "Missing Product Name"; the aggregate is total 2, ready 1,
unresolved exactly [row 1]; and adding the manual override
{1: {name:"Unknown Item"}} makes row 1 resolved. -/
theorem spec_c2_end_to_end :
    (importAnalysis c2data c2map).rows.map
        (fun r => (r.currentName, r.currentCost, r.isResolved)) =
      [("Sony A7C", 24845, true), ("", 91199, false)] ∧
    (importAnalysis c2data c2map).total = 2 ∧
    (importAnalysis c2data c2map).ready = 1 ∧
    (importAnalysis c2data c2map).unresolved.map (fun r => (r.index, r.reason)) =
      [(1, "Missing Product Name")] ∧
    (importAnalysis c2data c2mapOv).rows.map (fun r => r.isResolved) = [true, true] := by
  refine ⟨by decide, rfl, by decide, by decide, by decide⟩

/-- C6: the Column Harmonizer grouping is a partition: every header key
observed across the batch belongs to at least one group (and members come
only from the observed keys), distinct groups are disjoint (so membership
is in exactly one group), and each group's canonical key heads its member
list and is the first of its members in the batch's first-seen iteration
order. -/
theorem spec_c6_grouping_partition (rows : List Row) :
    (∀ key, key ∈ allKeysOf rows ↔
      ∃ g ∈ buildGroups (allKeysOf rows), key ∈ g.2) ∧
    List.Pairwise (fun g g2 => ∀ x ∈ g.2, x ∉ g2.2) (buildGroups (allKeysOf rows)) ∧
    ∀ g ∈ buildGroups (allKeysOf rows),
      g.2.head? = some g.1 ∧
      ∃ pre suf, allKeysOf rows = pre ++ g.1 :: suf ∧
        ∀ m2 ∈ g.2, m2 = g.1 ∨ m2 ∈ suf := by
  refine ⟨?_, groupsGo_disjoint _ _ _, ?_⟩
  · intro key
    constructor
    · intro hk
      exact groupsGo_cover (allKeysOf rows) (allKeysOf rows) [] key hk (List.not_mem_nil _)
    · rintro ⟨g, hg, hkg⟩
      rcases (groupsGo_members (allKeysOf rows) (allKeysOf rows) [] g hg key hkg).2 with h | h
      · exact h
      · exact h
  · intro g hg
    constructor
    · obtain ⟨_, _, a0, hshape⟩ := groupsGo_canon_shape (allKeysOf rows) (allKeysOf rows) [] g hg
      rw [hshape]
      rfl
    · exact groupsGo_first (allKeysOf rows) (allKeysOf rows) []
        (List.suffix_refl _) (fun x hx _ => hx) g hg

theorem spec_c6_witness :
    ∃ g ∈ buildGroups (allKeysOf c6rows), "Dealer Price" ∈ g.2 :=
  ((spec_c6_grouping_partition c6rows).1 "Dealer Price").mp (by decide)

/-- C7: Column Harmonizer output shape: the output has the same length
(and order: output row i is derived from input row i, and each of its
values is a value of that input row), every output row's key set is a
subset of the canonical key set derived from the full batch, and rows
with zero headers pass through unchanged. -/
theorem spec_c7_output_shape (rows : List Row) :
    (harmonizeColumnNames rows).length = rows.length ∧
    (∀ r ∈ harmonizeColumnNames rows, ∀ k ∈ rowKeys r,
      k ∈ (buildGroups (allKeysOf rows)).map Prod.fst) ∧
    ∀ i (hi : i < rows.length) (ho : i < (harmonizeColumnNames rows).length),
      (∀ k v, rowGet ((harmonizeColumnNames rows).get ⟨i, ho⟩) k = some v →
        ∃ k2, rowGet (rows.get ⟨i, hi⟩) k2 = some v) ∧
      (rowKeys (rows.get ⟨i, hi⟩) = [] →
        (harmonizeColumnNames rows).get ⟨i, ho⟩ = rows.get ⟨i, hi⟩) := by
  by_cases h0 : rows.isEmpty = true
  · have hrw : harmonizeColumnNames rows = rows := by
      simp only [harmonizeColumnNames]
      rw [if_pos h0]
    rw [hrw]
    refine ⟨rfl, ?_, ?_⟩
    · intro r hr k hk
      exfalso
      have hmem : k ∈ allKeysOf rows := (mem_allKeysOf k rows).mpr ⟨r, hr, hk⟩
      rw [List.isEmpty_iff.mp h0] at hr
      exact List.not_mem_nil _ hr
    · intro i hi ho
      exact ⟨fun k v hv => ⟨k, hv⟩, fun _ => rfl⟩
  · by_cases h1 : (allKeysOf rows).isEmpty = true
    · have hrw : harmonizeColumnNames rows = rows := by
        simp only [harmonizeColumnNames]
        rw [if_neg h0, if_pos h1]
      rw [hrw]
      refine ⟨rfl, ?_, ?_⟩
      · intro r hr k hk
        exfalso
        have hmem : k ∈ allKeysOf rows := (mem_allKeysOf k rows).mpr ⟨r, hr, hk⟩
        rw [List.isEmpty_iff.mp h1] at hmem
        exact List.not_mem_nil _ hmem
      · intro i hi ho
        exact ⟨fun k v hv => ⟨k, hv⟩, fun _ => rfl⟩
    · have hrw : harmonizeColumnNames rows =
          rows.map (rewriteRow (buildGroups (allKeysOf rows))) := by
        simp only [harmonizeColumnNames]
        rw [if_neg h0, if_neg h1]
      rw [hrw]
      refine ⟨List.length_map _ _, ?_, ?_⟩
      · intro r hr k hk
        obtain ⟨r0, _, rfl⟩ := List.mem_map.mp hr
        exact rewriteRow_keys_sub r0 _ k ((mem_rowKeys k _).mp hk)
      · intro i hi ho
        have hget : (rows.map (rewriteRow (buildGroups (allKeysOf rows)))).get ⟨i, ho⟩ =
            rewriteRow (buildGroups (allKeysOf rows)) (rows.get ⟨i, hi⟩) := by
          rw [List.get_eq_getElem, List.get_eq_getElem, List.getElem_map]
        rw [hget]
        constructor
        · intro k v hv
          exact rewriteRow_value_from _ _ k v hv
        · intro hnil
          rw [rowKeys_eq_nil _ hnil, rewriteRow_nil_row]

theorem spec_c7_witness :
    (harmonizeColumnNames c7rows).length = c7rows.length ∧
    (harmonizeColumnNames c7rows).get ⟨1, by decide⟩ = ([] : Row) := by
  refine ⟨(spec_c7_output_shape c7rows).1, ?_⟩
  have h2 := ((spec_c7_output_shape c7rows).2.2 1 (by decide) (by decide)).2 (by decide)
  rw [h2]
  decide

/-- C5: Column Harmonizer idempotence: for every batch, applying
harmonizeColumnNames to its own output yields, row by row, the same
key-to-value mapping as that output (rows are the spec's
ordered-irrelevant mappings, so equality is extensional equality of
property lookup). -/
theorem spec_c5_harmonize_idempotent (rows : List Row) :
    List.Forall₂ rowEquiv (harmonizeColumnNames (harmonizeColumnNames rows))
      (harmonizeColumnNames rows) := by
  by_cases h0 : rows.isEmpty = true
  · have hrw : harmonizeColumnNames rows = rows := by
      simp only [harmonizeColumnNames]
      rw [if_pos h0]
    rw [hrw, hrw]
    exact forall₂_rowEquiv_refl rows
  · by_cases h1 : (allKeysOf rows).isEmpty = true
    · have hrw : harmonizeColumnNames rows = rows := by
        simp only [harmonizeColumnNames]
        rw [if_neg h0, if_pos h1]
      rw [hrw, hrw]
      exact forall₂_rowEquiv_refl rows
    · have hout : harmonizeColumnNames rows =
          rows.map (rewriteRow (buildGroups (allKeysOf rows))) := by
        simp only [harmonizeColumnNames]
        rw [if_neg h0, if_neg h1]
      rw [hout]
      have hks2canon : ∀ x,
          x ∈ allKeysOf (rows.map (rewriteRow (buildGroups (allKeysOf rows)))) ↔
            x ∈ (buildGroups (allKeysOf rows)).map Prod.fst :=
        fun x => harmonized_mem_canonicals rows x
      have hfar := groupsGo_canon_far (allKeysOf rows) (allKeysOf rows) [] (fun x hx => hx)
      have hsing : ∀ g ∈ buildGroups
          (allKeysOf (rows.map (rewriteRow (buildGroups (allKeysOf rows))))), g.2 = [g.1] :=
        singleton_groups _ _ (fun x hx => (hks2canon x).mp hx) hfar
      have houtne : (rows.map (rewriteRow (buildGroups (allKeysOf rows)))).isEmpty = false := by
        cases rows with
        | nil => exact absurd rfl h0
        | cons r rest => rfl
      have hks2ne :
          (allKeysOf (rows.map (rewriteRow (buildGroups (allKeysOf rows))))).isEmpty = false := by
        obtain ⟨k, hk⟩ :=
          List.exists_mem_of_ne_nil (allKeysOf rows) (fun h => h1 (by rw [h]; rfl))
        obtain ⟨g, hg, _⟩ :=
          groupsGo_cover (allKeysOf rows) (allKeysOf rows) [] k hk (List.not_mem_nil _)
        have hmem2 : g.1 ∈ allKeysOf (rows.map (rewriteRow (buildGroups (allKeysOf rows)))) :=
          (hks2canon g.1).mpr (List.mem_map_of_mem Prod.fst hg)
        cases hcase : allKeysOf (rows.map (rewriteRow (buildGroups (allKeysOf rows)))) with
        | nil =>
          rw [hcase] at hmem2
          exact absurd hmem2 (List.not_mem_nil _)
        | cons a l => rfl
      have hfinal : harmonizeColumnNames (rows.map (rewriteRow (buildGroups (allKeysOf rows)))) =
          (rows.map (rewriteRow (buildGroups (allKeysOf rows)))).map
            (rewriteRow (buildGroups
              (allKeysOf (rows.map (rewriteRow (buildGroups (allKeysOf rows))))))) := by
        simp only [harmonizeColumnNames]
        rw [if_neg (by simp [houtne]), if_neg (by simp [hks2ne])]
      rw [hfinal, List.forall₂_map_left_iff]
      refine List.forall₂_same.mpr ?_
      intro r2 hr2
      refine rewrite_singletons_equiv _ r2 hsing ?_
      intro key hkey
      exact (mem_allKeysOf key _).mpr ⟨r2, hr2, hkey⟩
